import Mathlib

/-!
Verification of the cross-platform path-manipulation core and of two array
helpers of the `ts-common` repository.

The repository's files contain the array helpers (`lib/arrays.ts`) and the
test suite of the path core (`test/pathTests`), but not `lib/path.ts` itself;
the four path operations are therefore modelled from the specification's own
algorithm descriptions (each such definition says so in its doc comment), and
the array helpers are translated directly from `lib/arrays.ts`.

Strings are treated through their character lists; JavaScript's in-place
array mutation is rendered as explicit state passing; `undefined` inputs and
outputs are rendered with `Option`.
-/

namespace RepoLink

/-- One character of the Separator Normalizer's rewrite: a backslash becomes a
forward slash, every other character is unchanged. -/
def normChar (c : Char) : Char := if c = '\\' then '/' else c

/-- Modelled from the spec: `normalize` of `lib/path.ts`, whose implementation
is not among the repository's files (only its tests are).  §4.1: "given any
string, replace every backslash character with a forward slash, leaving all
other characters and their order unchanged". -/
def normalize (s : String) : String := ⟨s.data.map normChar⟩

/-- A single ASCII letter, as in the Windows drive-letter root pattern. -/
def isAsciiLetter (c : Char) : Bool := ('A' ≤ c && c ≤ 'Z') || ('a' ≤ c && c ≤ 'z')

/-- Modelled from the spec: `isRooted` of `lib/path.ts`, whose implementation
is not among the repository's files (only its tests are).  §4.2, in
precedence order: empty string is not rooted; a first character `/` or `\`
makes the string rooted; a "single ASCII letter, then `:`, then `/` or `\`"
start makes it rooted; otherwise it is not rooted.  Total, so it never
throws. -/
def isRooted (s : String) : Bool :=
  match s.data with
  | [] => false
  | c :: rest =>
    if c = '/' ∨ c = '\\' then true
    else
      match rest with
      | c2 :: d :: _ => if isAsciiLetter c ∧ c2 = ':' ∧ (d = '/' ∨ d = '\\') then true else false
      | _ => false

/-- Does the raw string begin with a separator character (`/` or `\`)? -/
def startsWithSep (s : String) : Bool :=
  match s.data with
  | [] => false
  | c :: _ => if c = '/' ∨ c = '\\' then true else false

/-- The drive letter of a raw string that begins with a Windows drive-letter
root (`letter`, `:`, separator), and `none` otherwise. -/
def driveOf (s : String) : Option Char :=
  match s.data with
  | c :: c2 :: d :: _ =>
    if isAsciiLetter c ∧ c2 = ':' ∧ (d = '/' ∨ d = '\\') then some c else none
  | _ => none

/-- Split a character list at every `/`, keeping the pieces (empty pieces
included); `acc` holds the current piece reversed. -/
def splitAux (cs : List Char) (acc : List Char) : List (List Char) :=
  match cs with
  | [] => [acc.reverse]
  | c :: rest => if c = '/' then acc.reverse :: splitAux rest [] else splitAux rest (c :: acc)

/-- The path components of a character list: split on `/` and discard the
pieces that are empty (the Joiner's splitting step, §4.3). -/
def components (cs : List Char) : List (List Char) :=
  (splitAux cs []).filter (fun p => !p.isEmpty)

/-- Re-join path components with a single `/` between each. -/
def joinChars : List (List Char) → List Char
  | [] => []
  | [p] => p
  | p :: q :: rest => p ++ '/' :: joinChars (q :: rest)

/-- Every supplied segment's components, in order: each segment is
separator-normalized, split on `/`, and its empty pieces discarded. -/
def allComponents (segments : List String) : List (List Char) :=
  (segments.map (fun s => components (normalize s).data)).flatten

/-- Modelled from the spec: `joinPath` of `lib/path.ts`, whose implementation
is not among the repository's files (only its tests are).  §4.3: zero
segments, or all-empty segments, give `"."`; otherwise each segment is
normalized, split on `/`, empty pieces are discarded and the surviving
components are re-joined with single `/` separators; a root of the raw first
segment is preserved verbatim in normalized form (`/` for a POSIX or
backslash root, `X:/` for a drive root), its trailing separator kept and
never doubled. -/
def joinPath (segments : List String) : String :=
  if segments.all (fun s => decide (s = "")) then "."
  else
    match segments with
    | [] => "."
    | s0 :: _ =>
      if startsWithSep s0 then ⟨'/' :: joinChars (allComponents segments)⟩
      else
        match driveOf s0 with
        | some c => ⟨c :: ':' :: '/' :: joinChars ((allComponents segments).drop 1)⟩
        | none => ⟨joinChars (allComponents segments)⟩

/-- Is the string absolute for the host platform the repository's tests run
on (POSIX): does it begin with a forward slash? -/
def hostAbsolute (s : String) : Bool :=
  match s.data with
  | c :: _ => if c = '/' then true else false
  | [] => false

/-- Modelled from the spec: `resolvePath` of `lib/path.ts`, whose
implementation is not among the repository's files (only its tests are).
§4.4: join the supplied segments into one candidate; return the candidate
when it is already absolute; otherwise join the current working directory
(first) with the candidate (second).  The short-circuit uses the host's
(POSIX) notion of an absolute path — a leading forward slash — following the
spec's observed-behavior clause ("if that input is not recognized as already
absolute on the host") and the repository's own tests, which require
`resolvePath("C:/", ...)` to have the working directory prepended.  The
current working directory, the one external read, is passed explicitly. -/
def resolvePath (cwd : String) (segments : List String) : String :=
  let candidate := joinPath segments
  if hostAbsolute candidate then candidate else joinPath [cwd, candidate]

/-- The normalized representation of the root of a rooted string: `/` for a
POSIX or backslash root, `X:/` for a drive-letter root, nothing for an
un-rooted string. -/
def rootRepr (s : String) : List Char :=
  if startsWithSep s then ['/']
  else
    match driveOf s with
    | some c => [c, ':', '/']
    | none => []

/-- Two consecutive forward slashes somewhere in the character list. -/
def hasDoubleSlash : List Char → Bool
  | [] => false
  | [_] => false
  | a :: b :: rest => (decide (a = '/') && decide (b = '/')) || hasDoubleSlash (b :: rest)

/-- The dispatch of `first` in `lib/arrays.ts`: its `condition` parameter is
either absent (`undefined`), a literal value to compare with `===`, or a
predicate function; runtime type inspection is rendered as a tagged sum. -/
inductive FirstCondition (T : Type) where
  | noCond : FirstCondition T
  | value : T → FirstCondition T
  | pred : (T → Bool) → FirstCondition T

/-- The `for`-loop of `first`'s predicate branch in `lib/arrays.ts`: walk the
array and stop at the first element satisfying the predicate. -/
def firstPred {T : Type} (values : List T) (p : T → Bool) : Option T :=
  match values with
  | [] => none
  | v :: rest => if p v then some v else firstPred rest p

/-- Termination measure for `first`'s recursive dispatch: the `value` branch
re-invokes `first` with a `pred` condition. -/
def condWeight {T : Type} : FirstCondition T → Nat
  | .value _ => 1
  | _ => 0

/-- The function `first` of `lib/arrays.ts`: `undefined` values give `undefined`; a
function condition is searched for with a loop; a literal condition re-invokes
`first` with the predicate "strictly equal to the literal"; no condition
returns the head element. -/
def first {T : Type} [DecidableEq T] (values : Option (List T)) (condition : FirstCondition T) :
    Option T :=
  match values with
  | none => none
  | some vs =>
    match condition with
    | .pred p => firstPred vs p
    | .value x => first (some vs) (.pred (fun v => decide (v = x)))
    | .noCond => vs.head?
termination_by condWeight condition
decreasing_by simp [condWeight]

/-- The flattened single-pass form the spec's design note asks for (claim-side
definition for the refinement claim): one iterative pass that returns the
first element strictly equal to `x`. -/
def firstIter {T : Type} [DecidableEq T] (values : List T) (x : T) : Option T :=
  match values with
  | [] => none
  | v :: rest => if v = x then some v else firstIter rest x

/-- The indexed loop of `indexOf` in `lib/arrays.ts`, carrying the current
index `i`. -/
def indexOfFrom {T : Type} (cond : T → Nat → Bool) : List T → Nat → Int
  | [], _ => -1
  | v :: rest, i => if cond v i then (i : Int) else indexOfFrom cond rest (i + 1)

/-- The function `indexOf` of `lib/arrays.ts`: the index of the first element matching the
condition, `-1` when there is none or the array is `undefined`. -/
def indexOf {T : Type} (values : Option (List T)) (cond : T → Nat → Bool) : Int :=
  match values with
  | none => -1
  | some vs => indexOfFrom cond vs 0

/-- The function `removeFirst` of `lib/arrays.ts`: find the first matching index with
`indexOf`; when it is not `-1`, splice that one element out of the array and
return it.  The in-place mutation of `values.splice(indexToRemove, 1)` is
rendered by returning the updated array alongside the removed element. -/
def removeFirst {T : Type} (values : Option (List T)) (cond : T → Nat → Bool) :
    Option (List T) × Option T :=
  match values with
  | none => (none, none)
  | some vs =>
    let idx := indexOf (some vs) cond
    if idx = -1 then (some vs, none)
    else (some (vs.take idx.toNat ++ vs.drop (idx.toNat + 1)), vs.get? idx.toNat)

end RepoLink

namespace RepoLink

example : joinPath [] = "." := by decide
example : joinPath [""] = "." := by decide
example : joinPath ["", ""] = "." := by decide
example : joinPath ["a", "b"] = "a/b" := by decide
example : joinPath ["a", "b/c", "d\\e\\f"] = "a/b/c/d/e/f" := by decide
example : joinPath ["C:/", "apples", "oranges"] = "C:/apples/oranges" := by decide
example : joinPath ["/"] = "/" := by decide
example : normalize "C:\\a\\b.txt" = "C:/a/b.txt" := by decide
example : isRooted "Z:\\a/b\\c" = true := by decide
example : isRooted "9:/" = false := by decide
example : resolvePath "/home" ["a", "b"] = "/home/a/b" := by decide
example : resolvePath "/home" [] = "/home/." := by decide
example : resolvePath "/home" ["C:/", "apples", "oranges"] = "/home/C:/apples/oranges" := by decide
example : resolvePath "/home" ["/x", "y"] = "/x/y" := by decide
example : first (some [1, 2, 3]) (FirstCondition.value 2) = some 2 := by
  rw [first, first]; decide
example : firstIter [1, 2, 3] 2 = some 2 := by decide
example : removeFirst (some [1, 2, 3]) (fun v _ => decide (v = 2)) = (some [1, 3], some 2) := by
  decide
example : removeFirst (some [1, 2, 3]) (fun v _ => decide (v = 9)) = (some [1, 2, 3], none) := by
  decide
example : removeFirst (none : Option (List Nat)) (fun v _ => decide (v = 9)) = (none, none) := by
  decide

end RepoLink

namespace RepoLink

/-- Separator normalization of a single character is idempotent. -/
theorem normChar_normChar (c : Char) : normChar (normChar c) = normChar c := by
  by_cases h : c = '\\'
  · subst h; decide
  · simp [normChar, h]

/-- Every piece produced by `splitAux` is free of forward slashes, provided the
accumulator is. -/
theorem mem_splitAux_no_slash (cs : List Char) :
    ∀ acc : List Char, '/' ∉ acc → ∀ p ∈ splitAux cs acc, '/' ∉ p := by
  induction cs with
  | nil =>
    intro acc hacc p hp
    simp only [splitAux, List.mem_singleton] at hp
    subst hp
    simpa using hacc
  | cons c rest ih =>
    intro acc hacc p hp
    by_cases hc : c = '/'
    · subst hc
      simp only [splitAux, eq_self_iff_true, if_true, List.mem_cons] at hp
      rcases hp with hp | hp
      · subst hp; simpa using hacc
      · exact ih [] (by simp) p hp
    · simp only [splitAux, if_neg hc] at hp
      refine ih (c :: acc) ?_ p hp
      intro hmem
      rcases List.mem_cons.mp hmem with h1 | h1
      · exact hc h1.symm
      · exact hacc h1

/-- Every component of a character list is non-empty and slash-free. -/
theorem components_good (cs : List Char) : ∀ p ∈ components cs, p ≠ [] ∧ '/' ∉ p := by
  intro p hp
  rw [components, List.mem_filter] at hp
  refine ⟨?_, mem_splitAux_no_slash cs [] (by simp) p hp.1⟩
  have h2 := hp.2
  simp only [Bool.not_eq_true'] at h2
  simpa [List.isEmpty_iff] using h2

/-- Every component contributed by any segment list is non-empty and
slash-free. -/
theorem allComponents_good (segments : List String) :
    ∀ p ∈ allComponents segments, p ≠ [] ∧ '/' ∉ p := by
  intro p hp
  rw [allComponents, List.mem_flatten] at hp
  rcases hp with ⟨lp, hlp, hplp⟩
  rw [List.mem_map] at hlp
  rcases hlp with ⟨s, _, rfl⟩
  exact components_good _ p hplp

/-- Joining a list of components headed by a non-empty component gives a
non-empty character list. -/
theorem joinChars_ne_nil (p : List Char) (rest : List (List Char)) (hp : p ≠ []) :
    joinChars (p :: rest) ≠ [] := by
  cases rest with
  | nil => simpa [joinChars] using hp
  | cons q r =>
    show p ++ '/' :: joinChars (q :: r) ≠ []
    simp [hp]

/-- The first character of a join of non-empty slash-free components is never
a forward slash. -/
theorem joinChars_head (comps : List (List Char)) (h : ∀ p ∈ comps, p ≠ [] ∧ '/' ∉ p) :
    (joinChars comps).head? ≠ some '/' := by
  cases comps with
  | nil => simp [joinChars]
  | cons p rest =>
    have hp := h p (List.mem_cons_self p rest)
    rcases p with _ | ⟨c, cp⟩
    · exact absurd rfl hp.1
    have hc : c ≠ '/' := fun hcc => hp.2 (by simp [hcc])
    cases rest with
    | nil =>
      show (joinChars [c :: cp]).head? ≠ some '/'
      simpa [joinChars] using hc
    | cons q r =>
      show ((c :: cp) ++ '/' :: joinChars (q :: r)).head? ≠ some '/'
      simpa using hc

/-- Unfolding equation for `hasDoubleSlash` on two leading characters. -/
theorem hasDoubleSlash_cons2 (a b : Char) (rest : List Char) :
    hasDoubleSlash (a :: b :: rest) =
      ((decide (a = '/') && decide (b = '/')) || hasDoubleSlash (b :: rest)) := rfl

/-- Prepending a slash-free block to a double-slash-free list keeps the whole
list double-slash-free. -/
theorem hasDoubleSlash_append (p l : List Char) (hp : '/' ∉ p)
    (hl : hasDoubleSlash l = false) : hasDoubleSlash (p ++ l) = false := by
  induction p with
  | nil => simpa using hl
  | cons c p2 ih =>
    have hc : ¬(c = '/') := fun hcc => hp (by simp [hcc])
    have hp2 : '/' ∉ p2 := fun hmm => hp (List.mem_cons_of_mem _ hmm)
    cases p2 with
    | nil =>
      cases l with
      | nil => rfl
      | cons d l2 =>
        show hasDoubleSlash (c :: d :: l2) = false
        rw [hasDoubleSlash_cons2]
        simp [hc, hl]
    | cons c2 p3 =>
      show hasDoubleSlash (c :: c2 :: (p3 ++ l)) = false
      rw [hasDoubleSlash_cons2]
      have hrec := ih hp2
      simp only [hc, decide_False, Bool.false_and, Bool.false_or]
      exact hrec

/-- A slash-free list is double-slash-free. -/
theorem hasDoubleSlash_of_no_slash (p : List Char) (hp : '/' ∉ p) :
    hasDoubleSlash p = false := by
  have h := hasDoubleSlash_append p [] hp rfl
  simpa using h

/-- The join of non-empty slash-free components never contains two adjacent
forward slashes. -/
theorem joinChars_noDS (comps : List (List Char)) (h : ∀ p ∈ comps, p ≠ [] ∧ '/' ∉ p) :
    hasDoubleSlash (joinChars comps) = false := by
  induction comps with
  | nil => rfl
  | cons p rest ih =>
    have hp := h p (List.mem_cons_self p rest)
    have hrest : ∀ q ∈ rest, q ≠ [] ∧ '/' ∉ q := fun q hq => h q (List.mem_cons_of_mem _ hq)
    cases rest with
    | nil => exact hasDoubleSlash_of_no_slash p hp.2
    | cons q r =>
      show hasDoubleSlash (p ++ '/' :: joinChars (q :: r)) = false
      apply hasDoubleSlash_append _ _ hp.2
      have hne := joinChars_ne_nil q r (hrest q (List.mem_cons_self q r)).1
      have hh := joinChars_head (q :: r) hrest
      have hds := ih hrest
      cases hjc : joinChars (q :: r) with
      | nil => exact absurd hjc hne
      | cons d m =>
        rw [hjc] at hh hds
        rw [hasDoubleSlash_cons2]
        have hd : ¬(d = '/') := by
          intro hdd
          exact hh (by simp [hdd])
        simp [hd, hds]

/-- The value held by `getLast?` is a member of the list. -/
theorem mem_of_getLastQ {l : List Char} {a : Char} (h : l.getLast? = some a) : a ∈ l := by
  rcases List.mem_getLast?_eq_getLast (show a ∈ l.getLast? from h) with ⟨hne, hx⟩
  rw [hx]
  exact List.getLast_mem hne

/-- The last character of a join of non-empty slash-free components is never a
forward slash. -/
theorem joinChars_last (comps : List (List Char)) (h : ∀ p ∈ comps, p ≠ [] ∧ '/' ∉ p) :
    (joinChars comps).getLast? ≠ some '/' := by
  induction comps with
  | nil => simp [joinChars]
  | cons p rest ih =>
    have hp := h p (List.mem_cons_self p rest)
    have hrest : ∀ q ∈ rest, q ≠ [] ∧ '/' ∉ q := fun q hq => h q (List.mem_cons_of_mem _ hq)
    cases rest with
    | nil =>
      show (joinChars [p]).getLast? ≠ some '/'
      intro hlast
      exact hp.2 (mem_of_getLastQ (by simpa [joinChars] using hlast))
    | cons q r =>
      show ((p ++ '/' :: joinChars (q :: r))).getLast? ≠ some '/'
      have hne := joinChars_ne_nil q r (hrest q (List.mem_cons_self q r)).1
      rw [List.getLast?_append_of_ne_nil p (by simp)]
      rw [show ('/' :: joinChars (q :: r)) = ['/'] ++ joinChars (q :: r) from rfl]
      rw [List.getLast?_append_of_ne_nil ['/'] hne]
      exact ih hrest

/-- A string that begins with a separator is not empty. -/
theorem ne_empty_of_startsWithSep (s : String) (h : startsWithSep s = true) : s ≠ "" := by
  intro he
  subst he
  simp [startsWithSep] at h

/-- A string with a drive-letter root is not empty. -/
theorem ne_empty_of_driveOf (s : String) (c : Char) (h : driveOf s = some c) : s ≠ "" := by
  intro he
  subst he
  simp [driveOf] at h

/-- The drive letter recognized by `driveOf` is an ASCII letter. -/
theorem driveOf_letter (s : String) (c : Char) (h : driveOf s = some c) :
    isAsciiLetter c = true := by
  unfold driveOf at h
  split at h
  · split at h
    next hcond => cases h; exact hcond.1
    next hcond => exact absurd h (by simp)
  · exact absurd h (by simp)

/-- A non-empty first segment makes the Joiner's all-empty test false. -/
theorem all_empty_false (s0 : String) (rest : List String) (h : s0 ≠ "") :
    (s0 :: rest).all (fun s => decide (s = "")) = false := by
  rw [List.all_cons]
  simp [h]

/-- The Joiner's base case: zero segments or all-empty segments give `"."`. -/
theorem joinPath_all_empty (segs : List String) (h : ∀ s ∈ segs, s = "") :
    joinPath segs = "." := by
  have hall : segs.all (fun s => decide (s = "")) = true := by
    rw [List.all_eq_true]
    intro s hs
    exact decide_eq_true (h s hs)
  simp [joinPath, hall]

/-- The Joiner on a first segment with a POSIX or backslash root. -/
theorem joinPath_cons_slash (s0 : String) (rest : List String) (h : startsWithSep s0 = true) :
    joinPath (s0 :: rest) = ⟨'/' :: joinChars (allComponents (s0 :: rest))⟩ := by
  have hall := all_empty_false s0 rest (ne_empty_of_startsWithSep s0 h)
  simp [joinPath, hall, h]

/-- The Joiner on a first segment with a drive-letter root. -/
theorem joinPath_cons_drive (s0 : String) (rest : List String) (c : Char)
    (hs : startsWithSep s0 = false) (hd : driveOf s0 = some c) :
    joinPath (s0 :: rest) = ⟨c :: ':' :: '/' :: joinChars ((allComponents (s0 :: rest)).drop 1)⟩ := by
  have hall := all_empty_false s0 rest (ne_empty_of_driveOf s0 c hd)
  simp [joinPath, hall, hs, hd]

/-- The Joiner on an un-rooted first segment (with not all segments empty). -/
theorem joinPath_cons_plain (s0 : String) (rest : List String)
    (hs : startsWithSep s0 = false) (hd : driveOf s0 = none)
    (hne : (s0 :: rest).all (fun s => decide (s = "")) = false) :
    joinPath (s0 :: rest) = ⟨joinChars (allComponents (s0 :: rest))⟩ := by
  simp [joinPath, hne, hs, hd]

/-- The Root Detector agrees with the separator test and the drive test. -/
theorem isRooted_cases (s : String) :
    isRooted s = (startsWithSep s || (driveOf s).isSome) := by
  unfold isRooted startsWithSep driveOf
  rcases hd : s.data with _ | ⟨c, rest⟩
  · rfl
  · by_cases hc : c = '/' ∨ c = '\\'
    · rcases rest with _ | ⟨c2, _ | ⟨d, m⟩⟩ <;> simp [hc]
    · rcases rest with _ | ⟨c2, _ | ⟨d, m⟩⟩ <;> simp [hc]
      by_cases hcond : isAsciiLetter c = true ∧ c2 = ':' ∧ (d = '/' ∨ d = '\\')
      · simp [hcond]
      · simp only [hcond, if_false, Option.isSome_none]
        push_neg at hcond
        by_cases h1 : isAsciiLetter c = true
        · by_cases h2 : c2 = ':'
          · simp [h1, h2]
            exact hcond h1 h2
          · simp [h1, h2]
        · simp [h1]

/-- A character list headed by a forward slash is rooted. -/
theorem isRooted_mk_slash (m : List Char) : isRooted ⟨'/' :: m⟩ = true := by
  simp [isRooted]

/-- A character list headed by an ASCII letter, a colon and a forward slash is
rooted. -/
theorem isRooted_mk_drive (c : Char) (m : List Char) (hc : isAsciiLetter c = true) :
    isRooted ⟨c :: ':' :: '/' :: m⟩ = true := by
  by_cases h : c = '/' ∨ c = '\\'
  · simp [isRooted, h]
  · simp [isRooted, h, hc]

/-- A rooted first segment makes any join rooted. -/
theorem joinPath_rooted_of_rooted (s0 : String) (rest : List String)
    (h : isRooted s0 = true) : isRooted (joinPath (s0 :: rest)) = true := by
  rw [isRooted_cases] at h
  by_cases hs : startsWithSep s0 = true
  · rw [joinPath_cons_slash s0 rest hs]
    exact isRooted_mk_slash _
  · have hd : (driveOf s0).isSome = true := by
      rcases Bool.or_eq_true_iff.mp h with h1 | h1
      · exact absurd h1 hs
      · exact h1
    rcases hopt : driveOf s0 with _ | c
    · rw [hopt] at hd; simp at hd
    · rw [joinPath_cons_drive s0 rest c (Bool.eq_false_iff.mpr hs) hopt]
      exact isRooted_mk_drive c _ (driveOf_letter s0 c hopt)

/-- A string recognized as absolute by the host begins with a forward slash
and is therefore rooted. -/
theorem isRooted_of_hostAbsolute (s : String) (h : hostAbsolute s = true) :
    isRooted s = true := by
  unfold hostAbsolute at h
  unfold isRooted
  rcases hd : s.data with _ | ⟨c, m⟩ <;> rw [hd] at h
  · simp at h
  · have hc : c = '/' := by
      by_cases hcc : c = '/'
      · exact hcc
      · simp [hcc] at h
    simp [hc]

/-- An ASCII letter is neither a forward slash nor a backslash nor a colon. -/
theorem isAsciiLetter_ne (c : Char) (h : isAsciiLetter c = true) :
    c ≠ '/' ∧ c ≠ '\\' ∧ c ≠ ':' := by
  refine ⟨?_, ?_, ?_⟩ <;> intro he <;> subst he <;> exact absurd h (by decide)

/-- The components of a character list headed by a drive token `c:` and a
separator: the drive token, then the components of the remainder. -/
theorem components_drive (c : Char) (m : List Char) (hc : ¬(c = '/')) :
    components (c :: ':' :: '/' :: m) = [c, ':'] :: components m := by
  have hcolon : ¬((':' : Char) = '/') := by decide
  rw [components, components]
  have h1 : splitAux (c :: ':' :: '/' :: m) [] = [c, ':'] :: splitAux m [] := by
    rw [splitAux, if_neg hc, splitAux, if_neg hcolon, splitAux, if_pos rfl]
    rfl
  rw [h1, List.filter_cons]
  simp

/-- The normalized form of a drive-rooted string starts with the drive letter,
a colon and a forward slash. -/
theorem normalize_drive (s : String) (c : Char) (h : driveOf s = some c) :
    ∃ m, (normalize s).data = c :: ':' :: '/' :: m := by
  have hletter := driveOf_letter s c h
  unfold driveOf at h
  split at h
  · split at h
    next a c2 d t heq hcond =>
      cases h
      refine ⟨t.map normChar, ?_⟩
      show (s.data.map normChar) = _
      rw [heq]
      have h1 : normChar c = c := by
        rw [normChar, if_neg (isAsciiLetter_ne c hletter).2.1]
      have h2 : normChar c2 = ':' := by
        rw [hcond.2.1]; decide
      have h3 : normChar d = '/' := by
        rcases hcond.2.2 with hd | hd <;> rw [hd] <;> decide
      simp [h1, h2, h3]
    next => exact absurd h (by simp)
  · exact absurd h (by simp)

/-- The components that two segments contribute. -/
theorem allComponents_pair (a b : String) :
    allComponents [a, b] =
      components (normalize a).data ++ components (normalize b).data := by
  simp [allComponents]

/-- Joining after prepending components: either nothing was prepended, or the
join of the suffix components, preceded by a separator, is a suffix of the
whole join. -/
theorem joinChars_suffix (l K : List (List Char)) (hK : K ≠ []) :
    l = [] ∨ ('/' :: joinChars K) <:+ joinChars (l ++ K) := by
  induction l with
  | nil => exact Or.inl rfl
  | cons p l2 ih =>
    right
    rcases ih with h0 | hsuf
    · subst h0
      rcases K with _ | ⟨k0, K2⟩
      · exact absurd rfl hK
      · exact ⟨p, rfl⟩
    · rcases hl2 : l2 ++ K with _ | ⟨x0, xs⟩
      · exact absurd (List.append_eq_nil.mp hl2).2 hK
      · rw [List.cons_append, hl2]
        rw [hl2] at hsuf
        have hstep : joinChars (x0 :: xs) <:+ (p ++ '/' :: joinChars (x0 :: xs)) :=
          ⟨p ++ ['/'], by simp⟩
        exact hsuf.trans hstep

/-- No double slash in a slash-rooted join of good components. -/
theorem noDS_slash_join (comps : List (List Char)) (h : ∀ p ∈ comps, p ≠ [] ∧ '/' ∉ p) :
    hasDoubleSlash ('/' :: joinChars comps) = false := by
  cases hjc : joinChars comps with
  | nil => rfl
  | cons d m2 =>
    rw [hasDoubleSlash_cons2]
    have hh := joinChars_head comps h
    have hds := joinChars_noDS comps h
    rw [hjc] at hh hds
    have hd : ¬(d = '/') := fun hdd => hh (by simp [hdd])
    simp [hd, hds]

/-- No double slash in a drive-rooted join of good components. -/
theorem noDS_drive_join (c : Char) (comps : List (List Char))
    (h : ∀ p ∈ comps, p ≠ [] ∧ '/' ∉ p) :
    hasDoubleSlash (c :: ':' :: '/' :: joinChars comps) = false := by
  have h1 := noDS_slash_join comps h
  rw [hasDoubleSlash_cons2, hasDoubleSlash_cons2]
  simp [h1]

/-- C8: `normalize` is idempotent — normalizing an already-normalized path
yields the same string: for every string `s`,
`normalize (normalize s) = normalize s`. -/
theorem normalize_idempotent : ∀ s : String, normalize (normalize s) = normalize s := by
  intro s
  show String.mk ((s.data.map normChar).map normChar) = String.mk (s.data.map normChar)
  rw [List.map_map]
  exact congrArg String.mk (List.map_congr_left fun c _ => normChar_normChar c)

/-- C3: `isRooted s` is true exactly when `s` is non-empty and either its
first character is `/` or `\`, or `s` begins with a single ASCII letter, `:`,
and `/` or `\` (whatever follows); the listed concrete examples behave as
stated, and `isRooted` is a total function, so it never throws. -/
theorem isRooted_characterization :
    (∀ s : String, isRooted s = true ↔
      ∃ c cs, s.data = c :: cs ∧
        (c = '/' ∨ c = '\\' ∨
          ∃ d ds, cs = ':' :: d :: ds ∧ isAsciiLetter c = true ∧ (d = '/' ∨ d = '\\')))
    ∧ isRooted "" = false ∧ isRooted "abc" = false ∧ isRooted "9:/" = false
    ∧ isRooted "/" = true ∧ isRooted "\\" = true ∧ isRooted "C:/" = true
    ∧ isRooted "Z:\\a/b\\c" = true := by
  refine ⟨?_, by decide, by decide, by decide, by decide, by decide, by decide, by decide⟩
  intro s
  constructor
  · intro h
    unfold isRooted at h
    rcases hd : s.data with _ | ⟨c, cs⟩ <;> rw [hd] at h
    · simp at h
    · refine ⟨c, cs, rfl, ?_⟩
      by_cases hc : c = '/' ∨ c = '\\'
      · rcases hc with hc | hc
        · exact Or.inl hc
        · exact Or.inr (Or.inl hc)
      · rcases cs with _ | ⟨c2, _ | ⟨d, ds⟩⟩
        · have h2 : (if c = '/' ∨ c = '\\' then true else false) = true := h
          rw [if_neg hc] at h2
          simp at h2
        · have h2 : (if c = '/' ∨ c = '\\' then true else false) = true := h
          rw [if_neg hc] at h2
          simp at h2
        · have h2 : (if c = '/' ∨ c = '\\' then true
              else if isAsciiLetter c = true ∧ c2 = ':' ∧ (d = '/' ∨ d = '\\') then true
              else false) = true := h
          rw [if_neg hc] at h2
          by_cases hcond : isAsciiLetter c = true ∧ c2 = ':' ∧ (d = '/' ∨ d = '\\')
          · refine Or.inr (Or.inr ⟨d, ds, ?_, hcond.1, hcond.2.2⟩)
            rw [hcond.2.1]
          · rw [if_neg hcond] at h2
            simp at h2
  · rintro ⟨c, cs, hd, hcase⟩
    unfold isRooted
    rw [hd]
    rcases hcase with hc | hc | ⟨d, ds, hcs, hal, hd2⟩
    · simp [hc]
    · simp [hc]
    · subst hcs
      by_cases hsep : c = '/' ∨ c = '\\'
      · simp [hsep]
      · show (if c = '/' ∨ c = '\\' then true
            else if isAsciiLetter c = true ∧ (':' : Char) = ':' ∧ (d = '/' ∨ d = '\\') then true
            else false) = true
        rw [if_neg hsep, if_pos ⟨hal, rfl, hd2⟩]

/-- C4: zero segments, or segments that are all empty, make `joinPath` return
exactly the one-character string `"."`; in particular `joinPath()`,
`joinPath("")` and `joinPath("", "")` all equal `"."`. -/
theorem joinPath_empty_default :
    (∀ segs : List String, (∀ s ∈ segs, s = "") → joinPath segs = ".")
    ∧ joinPath [] = "." ∧ joinPath [""] = "." ∧ joinPath ["", ""] = "." :=
  ⟨joinPath_all_empty, by decide, by decide, by decide⟩

/-- The character list a `String.mk` was built from. -/
theorem data_mk (l : List Char) : (String.mk l).data = l := rfl

/-- When not every segment is empty, the Joiner's all-empty test is false. -/
theorem all_empty_of_not_forall (segs : List String) (h : ¬∀ s ∈ segs, s = "") :
    segs.all (fun s => decide (s = "")) = false := by
  by_cases hb : segs.all (fun s => decide (s = "")) = true
  · exfalso
    apply h
    intro s hs
    exact of_decide_eq_true (List.all_eq_true.mp hb s hs)
  · exact Bool.eq_false_iff.mpr hb

/-- C5: for a non-empty, not-all-empty segment list, `joinPath` normalizes
each segment, splits on `/`, discards empty components and rejoins with
exactly one `/` between components: the result never contains a doubled
separator, never ends with a trailing separator unless the whole result is a
bare root (`/` or a drive root `X:/`), and on an un-rooted first segment it
is exactly the re-join of the surviving components;
`joinPath("a", "b/c", "d\\e\\f")` equals `"a/b/c/d/e/f"`. -/
theorem joinPath_flatten_spec (segs : List String) (h1 : segs ≠ [])
    (h2 : ¬∀ s ∈ segs, s = "") :
    hasDoubleSlash (joinPath segs).data = false
    ∧ ((joinPath segs).data.getLast? = some '/' →
        joinPath segs = "/" ∨ ∃ c, isAsciiLetter c = true ∧ joinPath segs = ⟨[c, ':', '/']⟩)
    ∧ (∀ s0 rest2, segs = s0 :: rest2 → isRooted s0 = false →
        joinPath segs = ⟨joinChars (allComponents segs)⟩)
    ∧ joinPath ["a", "b/c", "d\\e\\f"] = "a/b/c/d/e/f" := by
  rcases segs with _ | ⟨s0, rest⟩
  · exact absurd rfl h1
  have hall := all_empty_of_not_forall _ h2
  have hgood := allComponents_good (s0 :: rest)
  by_cases hs : startsWithSep s0 = true
  · rw [joinPath_cons_slash s0 rest hs]
    simp only [data_mk]
    refine ⟨noDS_slash_join _ hgood, ?_, ?_, by decide⟩
    · intro hlast
      cases hjc : joinChars (allComponents (s0 :: rest)) with
      | nil =>
        left
        rfl
      | cons d m =>
        exfalso
        rw [hjc] at hlast
        have hl2 : (d :: m).getLast? = some '/' := by
          rw [show ('/' :: d :: m) = ['/'] ++ (d :: m) from rfl,
            List.getLast?_append_of_ne_nil ['/'] (by simp)] at hlast
          exact hlast
        have hlt := joinChars_last _ hgood
        rw [hjc] at hlt
        exact hlt hl2
    · intro s1 rest2 heq hroot
      cases heq
      rw [isRooted_cases, hs] at hroot
      simp at hroot
  · have hs2 : startsWithSep s0 = false := Bool.eq_false_iff.mpr hs
    rcases hopt : driveOf s0 with _ | c
    · rw [joinPath_cons_plain s0 rest hs2 hopt hall]
      simp only [data_mk]
      refine ⟨joinChars_noDS _ hgood, ?_, fun s1 rest2 heq hroot => trivial, by decide⟩
      intro hlast
      exact absurd hlast (joinChars_last _ hgood)
    · rw [joinPath_cons_drive s0 rest c hs2 hopt]
      simp only [data_mk]
      have hgood1 : ∀ p ∈ (allComponents (s0 :: rest)).drop 1, p ≠ [] ∧ '/' ∉ p :=
        fun p hp => hgood p (List.drop_subset 1 _ hp)
      refine ⟨noDS_drive_join c _ hgood1, ?_, ?_, by decide⟩
      · intro hlast
        cases hjc : joinChars ((allComponents (s0 :: rest)).drop 1) with
        | nil =>
          right
          exact ⟨c, driveOf_letter s0 c hopt, rfl⟩
        | cons d m =>
          exfalso
          rw [hjc] at hlast
          have hl2 : (d :: m).getLast? = some '/' := by
            rw [show (c :: ':' :: '/' :: d :: m) = [c, ':', '/'] ++ (d :: m) from rfl,
              List.getLast?_append_of_ne_nil [c, ':', '/'] (by simp)] at hlast
            exact hlast
          have hlt := joinChars_last _ hgood1
          rw [hjc] at hlt
          exact hlt hl2
      · intro s1 rest2 heq hroot
        cases heq
        rw [isRooted_cases, hopt] at hroot
        simp at hroot

/-- C5 witness: the flattening theorem applied to the concrete input
`["a", "b/c", "d\\e\\f"]`. -/
theorem joinPath_flatten_witness :
    hasDoubleSlash (joinPath ["a", "b/c", "d\\e\\f"]).data = false :=
  (joinPath_flatten_spec ["a", "b/c", "d\\e\\f"] (by decide) (by decide)).1

/-- C6: if the raw first segment is rooted, the joined result begins with
that segment's normalized root representation (trailing separator included)
and the character right after the root is never another separator;
`joinPath("C:/", "apples", "oranges")` equals `"C:/apples/oranges"`. -/
theorem joinPath_preserves_root (s0 : String) (segs : List String) (h : isRooted s0 = true) :
    (∃ rest2, (joinPath (s0 :: segs)).data = rootRepr s0 ++ rest2 ∧ rest2.head? ≠ some '/')
    ∧ joinPath ["C:/", "apples", "oranges"] = "C:/apples/oranges" := by
  refine ⟨?_, by decide⟩
  rw [isRooted_cases] at h
  by_cases hs : startsWithSep s0 = true
  · rw [joinPath_cons_slash s0 segs hs]
    refine ⟨joinChars (allComponents (s0 :: segs)), ?_,
      joinChars_head _ (allComponents_good _)⟩
    rw [data_mk, rootRepr, if_pos hs]
    rfl
  · have hs2 : startsWithSep s0 = false := Bool.eq_false_iff.mpr hs
    rcases hopt : driveOf s0 with _ | c
    · rw [hopt, hs2] at h
      simp at h
    · rw [joinPath_cons_drive s0 segs c hs2 hopt]
      have hgood1 : ∀ p ∈ (allComponents (s0 :: segs)).drop 1, p ≠ [] ∧ '/' ∉ p :=
        fun p hp => allComponents_good _ p (List.drop_subset 1 _ hp)
      refine ⟨joinChars ((allComponents (s0 :: segs)).drop 1), ?_, joinChars_head _ hgood1⟩
      rw [data_mk, rootRepr, if_neg ?_, hopt]
      · rfl
      · rw [hs2]
        simp

/-- C6 witness: root preservation applied to the concrete input
`["C:/", "apples", "oranges"]`. -/
theorem joinPath_preserves_root_witness :
    joinPath ["C:/", "apples", "oranges"] = "C:/apples/oranges" :=
  (joinPath_preserves_root "C:/" ["apples", "oranges"] (by decide)).2

/-- C7 counterexample: the same first segment `"C:"` (not rooted) joins to a
rooted result with later segments `"x", "y"` but to an un-rooted result with
later segments `"", ""` — so `isRooted (joinPath a b c)` is not determined by
the first segment's root kind alone, and later segments can introduce
rootedness. -/
theorem joinPath_root_dependence_counterexample :
    isRooted (joinPath ["C:", "x", "y"]) = true
    ∧ isRooted (joinPath ["C:", "", ""]) = false
    ∧ isRooted "C:" = false := by decide

/-- C7 (amended): a rooted first segment always yields a rooted join — later
segments never remove rootedness — but the converse direction of the claim
fails: when the first segment is an un-rooted drive-letter-like token such as
`"C:"`, later non-empty segments can make the join rooted, so
`isRooted (joinPath a b c)` is not determined solely by `a`'s root kind. -/
theorem joinPath_rooted_first_authoritative (a : String) (segs : List String)
    (h : isRooted a = true) : isRooted (joinPath (a :: segs)) = true :=
  joinPath_rooted_of_rooted a segs h

/-- C7 witness: the amended direction applied at a concrete rooted first
segment. -/
theorem joinPath_rooted_first_witness : isRooted (joinPath ["/a", "b"]) = true :=
  joinPath_rooted_first_authoritative "/a" ["b"] (by decide)

/-- C1 counterexample: with working directory `"/home"` and zero segments the
resolver returns `"/home/."` — the working directory joined with the `"."`
candidate — and not the normalized working directory `"/home"` itself, as the
claim's zero-argument clause states. -/
theorem resolvePath_default_counterexample :
    resolvePath "/home" [] = "/home/." ∧ normalize "/home" = "/home"
    ∧ ("/home/." : String) ≠ "/home" := by decide

/-- C1 (amended): for every rooted working directory and every segment list
(the empty list and all-empty lists included), `isRooted` holds of the
resolver's result; in the zero-argument and all-empty-argument cases the
result is the working directory joined with the `"."` candidate (the
normalized, separator-collapsed working directory followed by `/.`), not the
bare normalized working directory. -/
theorem resolvePath_always_rooted (cwd : String) (segs : List String)
    (h : isRooted cwd = true) :
    isRooted (resolvePath cwd segs) = true
    ∧ ((∀ s ∈ segs, s = "") → resolvePath cwd segs = joinPath [cwd, "."]) := by
  constructor
  · show isRooted (if hostAbsolute (joinPath segs) = true then joinPath segs
      else joinPath [cwd, joinPath segs]) = true
    by_cases hh : hostAbsolute (joinPath segs) = true
    · rw [if_pos hh]
      exact isRooted_of_hostAbsolute _ hh
    · rw [if_neg hh]
      exact joinPath_rooted_of_rooted cwd [joinPath segs] h
  · intro hall
    have hc : joinPath segs = "." := joinPath_all_empty segs hall
    show (if hostAbsolute (joinPath segs) = true then joinPath segs
      else joinPath [cwd, joinPath segs]) = joinPath [cwd, "."]
    rw [hc]
    rw [if_neg (by decide : ¬hostAbsolute "." = true)]

/-- C1 witness: the amended resolver postcondition applied at the concrete
rooted working directory `"/home"` with zero segments. -/
theorem resolvePath_always_rooted_witness :
    isRooted (resolvePath "/home" ([] : List String)) = true
    ∧ resolvePath "/home" [] = joinPath ["/home", "."] :=
  ⟨(resolvePath_always_rooted "/home" [] (by decide)).1,
    (resolvePath_always_rooted "/home" [] (by decide)).2 (by decide)⟩

/-- C2: for every rooted working directory other than the drive root `"C:/"`
itself, resolving `["C:/", "apples", "oranges"]` prepends the working
directory to the drive-rooted-looking candidate — the result is the join of
the working directory with `"C:/apples/oranges"` — and that result ends with
`"/C:/apples/oranges"`. -/
theorem resolvePath_prepends_cwd (cwd : String) (h1 : isRooted cwd = true)
    (h2 : cwd ≠ "C:/") :
    resolvePath cwd ["C:/", "apples", "oranges"] = joinPath [cwd, "C:/apples/oranges"]
    ∧ "/C:/apples/oranges".data <:+ (resolvePath cwd ["C:/", "apples", "oranges"]).data := by
  have hcand : joinPath ["C:/", "apples", "oranges"] = "C:/apples/oranges" := by decide
  have heq : resolvePath cwd ["C:/", "apples", "oranges"]
      = joinPath [cwd, "C:/apples/oranges"] := by
    show (if hostAbsolute (joinPath ["C:/", "apples", "oranges"]) = true
        then joinPath ["C:/", "apples", "oranges"]
        else joinPath [cwd, joinPath ["C:/", "apples", "oranges"]])
      = joinPath [cwd, "C:/apples/oranges"]
    rw [hcand]
    rw [if_neg (by decide : ¬hostAbsolute "C:/apples/oranges" = true)]
  rw [heq]
  refine ⟨rfl, ?_⟩
  have hK : components (normalize "C:/apples/oranges").data ≠ [] := by decide
  have hT : ('/' :: joinChars (components (normalize "C:/apples/oranges").data))
      = "/C:/apples/oranges".data := by decide
  rw [isRooted_cases] at h1
  by_cases hs : startsWithSep cwd = true
  · rw [joinPath_cons_slash cwd ["C:/apples/oranges"] hs, data_mk]
    rw [show allComponents [cwd, "C:/apples/oranges"]
        = components (normalize cwd).data ++ components (normalize "C:/apples/oranges").data
      from allComponents_pair cwd "C:/apples/oranges"]
    rcases joinChars_suffix (components (normalize cwd).data)
        (components (normalize "C:/apples/oranges").data) hK with h0 | hsuf
    · rw [h0, List.nil_append, ← hT]
    · rw [← hT]
      exact hsuf.trans ⟨['/'], rfl⟩
  · have hs2 : startsWithSep cwd = false := Bool.eq_false_iff.mpr hs
    rcases hopt : driveOf cwd with _ | c
    · rw [hopt, hs2] at h1
      simp at h1
    · rw [joinPath_cons_drive cwd ["C:/apples/oranges"] c hs2 hopt, data_mk]
      rcases normalize_drive cwd c hopt with ⟨m, hm⟩
      have hletter := driveOf_letter cwd c hopt
      rw [show allComponents [cwd, "C:/apples/oranges"]
          = components (normalize cwd).data ++ components (normalize "C:/apples/oranges").data
        from allComponents_pair cwd "C:/apples/oranges"]
      rw [hm, components_drive c m (isAsciiLetter_ne c hletter).1]
      rw [List.cons_append, List.drop_one, List.tail_cons]
      rcases joinChars_suffix (components m)
          (components (normalize "C:/apples/oranges").data) hK with h0 | hsuf
      · rw [h0, List.nil_append, ← hT]
        exact ⟨[c, ':'], rfl⟩
      · rw [← hT]
        refine hsuf.trans ?_
        exact ⟨[c, ':', '/'], rfl⟩

/-- C2 witness: the resolver prepends the working directory `"/home"` to the
drive-rooted-looking input, and the result ends with `"/C:/apples/oranges"`. -/
theorem resolvePath_prepends_cwd_witness :
    resolvePath "/home" ["C:/", "apples", "oranges"] = joinPath ["/home", "C:/apples/oranges"]
    ∧ "/C:/apples/oranges".data <:+ (resolvePath "/home" ["C:/", "apples", "oranges"]).data :=
  resolvePath_prepends_cwd "/home" (by decide) (by decide)

/-- The predicate loop with the strict-equality predicate is the iterative
single pass. -/
theorem firstPred_eq_firstIter {T : Type} [DecidableEq T] (vs : List T) (x : T) :
    firstPred vs (fun v => decide (v = x)) = firstIter vs x := by
  induction vs with
  | nil => rfl
  | cons v rest ih =>
    by_cases h : v = x
    · simp [firstPred, firstIter, h]
    · simp [firstPred, firstIter, h, ih]

/-- C9: for a defined array and a condition that is a plain value rather than
a function, `first`'s recursive value-to-predicate dispatch returns exactly
what the flattened single iterative pass (`firstIter`, the spec's suggested
form: return the first element strictly equal to the value, `undefined` when
there is none) returns. -/
theorem first_value_eq_iterative {T : Type} [DecidableEq T] (vs : List T) (x : T) :
    first (some vs) (FirstCondition.value x) = firstIter vs x := by
  rw [first, first]
  exact firstPred_eq_firstIter vs x

/-- C9 witness: the recursive dispatch and the iterative pass agree on a
concrete array and value. -/
theorem first_value_eq_iterative_witness :
    first (some [1, 2, 3]) (FirstCondition.value 2) = firstIter [1, 2, 3] 2 :=
  first_value_eq_iterative [1, 2, 3] 2

/-- What `indexOfFrom` computes: either no element matches (result `-1`) or
the result is the offset of the first matching element. -/
theorem indexOfFrom_spec {T : Type} (cond : T → Nat → Bool) (vs : List T) :
    ∀ k : Nat,
      (indexOfFrom cond vs k = -1
        ∧ ∀ i, ∀ h : i < vs.length, cond (vs.get ⟨i, h⟩) (k + i) = false)
      ∨ (∃ i, ∃ h : i < vs.length, indexOfFrom cond vs k = ((k + i : Nat) : Int)
          ∧ cond (vs.get ⟨i, h⟩) (k + i) = true
          ∧ ∀ j, ∀ hj : j < i, cond (vs.get ⟨j, Nat.lt_trans hj h⟩) (k + j) = false) := by
  induction vs with
  | nil =>
    intro k
    left
    exact ⟨rfl, fun i h => absurd h (by simp)⟩
  | cons v rest ih =>
    intro k
    by_cases hv : cond v k = true
    · right
      refine ⟨0, by simp, ?_, by simpa using hv, fun j hj => absurd hj (Nat.not_lt_zero j)⟩
      show (if cond v k then ((k : Nat) : Int) else indexOfFrom cond rest (k + 1))
        = ((k + 0 : Nat) : Int)
      rw [if_pos hv]
      simp
    · have hv2 : cond v k = false := Bool.eq_false_iff.mpr hv
      have hstep : indexOfFrom cond (v :: rest) k = indexOfFrom cond rest (k + 1) := by
        show (if cond v k then ((k : Nat) : Int) else indexOfFrom cond rest (k + 1)) = _
        rw [if_neg ?_]
        rw [hv2]
        simp
      rcases ih (k + 1) with ⟨hnone, hall⟩ | ⟨i, hlt, heq2, htrue, hmin⟩
      · left
        refine ⟨by rw [hstep, hnone], ?_⟩
        intro i h
        cases i with
        | zero => simpa using hv2
        | succ i2 =>
          have h3 : i2 < rest.length := by
            simpa using Nat.lt_of_succ_lt_succ h
          have h4 := hall i2 h3
          have h5 : k + 1 + i2 = k + (i2 + 1) := by omega
          rw [h5] at h4
          exact h4
      · right
        have hlt2 : i + 1 < (v :: rest).length := by
          simpa using Nat.succ_lt_succ hlt
        refine ⟨i + 1, hlt2, ?_, ?_, ?_⟩
        · rw [hstep, heq2]
          congr 1
          omega
        · have h5 : k + 1 + i = k + (i + 1) := by omega
          rw [h5] at htrue
          exact htrue
        · intro j hj
          cases j with
          | zero => simpa using hv2
          | succ j2 =>
            have hj2 : j2 < i := Nat.lt_of_succ_lt_succ hj
            have h6 := hmin j2 hj2
            have h7 : k + 1 + j2 = k + (j2 + 1) := by omega
            rw [h7] at h6
            exact h6

/-- C10: `removeFirst` on an `undefined` array returns `undefined` and no
array; on a defined array it leaves the array unchanged and returns
`undefined` when no element matches; and when `i` is the first index whose
element satisfies the condition, it removes exactly that one element (the
array shrinks by one) and returns it. -/
theorem removeFirst_spec {T : Type} (vs : List T) (cond : T → Nat → Bool) :
    removeFirst (none : Option (List T)) cond = (none, none)
    ∧ ((∀ i, ∀ h : i < vs.length, cond (vs.get ⟨i, h⟩) i = false) →
        removeFirst (some vs) cond = (some vs, none))
    ∧ (∀ i, ∀ h : i < vs.length, cond (vs.get ⟨i, h⟩) i = true →
        (∀ j, ∀ hj : j < i, cond (vs.get ⟨j, Nat.lt_trans hj h⟩) j = false) →
        removeFirst (some vs) cond = (some (vs.take i ++ vs.drop (i + 1)), some (vs.get ⟨i, h⟩))
        ∧ (vs.take i ++ vs.drop (i + 1)).length + 1 = vs.length) := by
  refine ⟨rfl, ?_, ?_⟩
  · intro hnone
    rcases indexOfFrom_spec cond vs 0 with ⟨hm1, _⟩ | ⟨i, hlt, _, htrue, _⟩
    · show (if indexOfFrom cond vs 0 = -1 then (some vs, none)
        else (some (vs.take (indexOfFrom cond vs 0).toNat
          ++ vs.drop ((indexOfFrom cond vs 0).toNat + 1)),
          vs.get? (indexOfFrom cond vs 0).toNat)) = (some vs, none)
      rw [if_pos hm1]
    · exfalso
      have hfalse := hnone i hlt
      rw [show (0 : Nat) + i = i from Nat.zero_add i] at htrue
      rw [htrue] at hfalse
      exact Bool.true_eq_false.mp hfalse
  · intro i h htrue hmin
    rcases indexOfFrom_spec cond vs 0 with ⟨_, hall⟩ | ⟨i0, hlt0, heq0, htrue0, hmin0⟩
    · exfalso
      have hfalse := hall i h
      rw [Nat.zero_add] at hfalse
      rw [htrue] at hfalse
      exact Bool.true_eq_false.mp hfalse
    · rw [Nat.zero_add] at htrue0
      have hieq : i0 = i := by
        rcases Nat.lt_trichotomy i0 i with hlt2 | heq2 | hgt2
        · exfalso
          have hzero := hmin i0 hlt2
          rw [hzero] at htrue0
          exact Bool.false_eq_true.mp htrue0
        · exact heq2
        · exfalso
          have hzero := hmin0 i hgt2
          rw [Nat.zero_add] at hzero
          rw [htrue] at hzero
          exact Bool.true_eq_false.mp hzero
      subst hieq
      rw [Nat.zero_add] at heq0
      have htn : (indexOfFrom cond vs 0).toNat = i0 := by
        rw [heq0]
        exact Int.toNat_natCast i0
      have hne : ¬indexOfFrom cond vs 0 = -1 := by
        rw [heq0]
        omega
      constructor
      · show (if indexOfFrom cond vs 0 = -1 then (some vs, none)
          else (some (vs.take (indexOfFrom cond vs 0).toNat
            ++ vs.drop ((indexOfFrom cond vs 0).toNat + 1)),
            vs.get? (indexOfFrom cond vs 0).toNat)) = _
        rw [if_neg hne, htn]
        have hget : vs.get? i0 = some (vs.get ⟨i0, h⟩) := List.get?_eq_get h
        rw [hget]
      · rw [List.length_append, List.length_take, List.length_drop]
        omega

/-- C10 witness: removing the first element equal to `2` from `[1, 2, 3]`
yields `[1, 3]` and returns `2`, and the array shrinks by one. -/
theorem removeFirst_spec_witness :
    removeFirst (some [1, 2, 3]) (fun v _ => decide (v = 2)) = (some [1, 3], some 2)
    ∧ ([1, 3] : List Nat).length + 1 = ([1, 2, 3] : List Nat).length := by
  have h := (removeFirst_spec [1, 2, 3] (fun v _ => decide (v = 2))).2.2 1 (by decide)
    (by decide) (fun j hj => by
      interval_cases j
      exact rfl)
  exact ⟨h.1, h.2⟩

end RepoLink
